import Mathlib

/-!
# Verification of `nfsusage` (src/main.go)

A shallow embedding of the pure logic of the `nfsusage` CLI tool and proofs
about it.  Go `int64` values are modelled as `Int` together with an explicit
two's-complement wrap `wrap64` applied exactly where the Go code performs
64-bit arithmetic (`+=`, binary `-`, unary `-`).  Go's `map[string]int64` is
modelled as an association list `List (String × Int)`; the Go map-assignment
`m[k] = v` is `insertGo` (replace the binding if the key is present, append
otherwise), and map well-formedness (distinct keys) is the predicate
`NodupKeys`.  Effectful parts (reading `/proc/mounts`, running `df`, the
filesystem) are embedded by passing their observed text / contents as
explicit arguments.
-/

deriving instance DecidableEq for Except

namespace NFSUsage

/-- Two's-complement wrap into the `int64` range `[-2^63, 2^63)`,
the semantics of Go `int64` arithmetic. -/
def wrap64 (n : Int) : Int := (n + 2^63) % 2^64 - 2^63

/-- Go `int64` addition (`a + b` on `int64`, wrapping). -/
def addW (a b : Int) : Int := wrap64 (a + b)

/-- Go `int64` subtraction (`a - b` on `int64`, wrapping). -/
def subW (a b : Int) : Int := wrap64 (a - b)

/-- Go `int64` negation (`-a` on `int64`, wrapping; `-(-2^63)` wraps to `-2^63`). -/
def negW (a : Int) : Int := wrap64 (-a)

/-- The `int64` sum of a list of values, folded left like a Go
`total += v` loop starting from `0`. -/
def sumW (l : List Int) : Int := l.foldl addW 0

/-- `n` is representable as a Go `int64`. -/
def Int64Range (n : Int) : Prop := -2^63 ≤ n ∧ n < 2^63

instance : DecidablePred Int64Range := fun n => by
  unfold Int64Range; infer_instance

/-- Go map assignment `m[k] = v` on an association list: replace the first
binding of `k` if present, otherwise append the new binding. -/
def insertGo : List (String × Int) → String → Int → List (String × Int)
  | [], k, v => [(k, v)]
  | (k', v') :: rest, k, v =>
    if k' = k then (k, v) :: rest else (k', v') :: insertGo rest k v

/-- The keys of an association list. -/
def keysOf (l : List (String × Int)) : List String := l.map Prod.fst

/-- Well-formedness of the association-list model of a Go map:
all keys are distinct. -/
def NodupKeys (l : List (String × Int)) : Prop := (keysOf l).Nodup

instance : DecidablePred NodupKeys := fun l => by
  unfold NodupKeys; infer_instance

/-- Go map read `m[k]` in value position: the bound value,
or the zero value `0` when the key is absent. -/
def lookup0 (l : List (String × Int)) (k : String) : Int :=
  (l.lookup k).getD 0

/-- Substring test on character lists: `p` occurs contiguously in the second
argument.  Semantics of Go `strings.Contains`. -/
def listContains (p : List Char) : List Char → Bool
  | [] => p.isEmpty
  | c :: cs => p.isPrefixOf (c :: cs) || listContains p cs

/-- `strings.Contains s pat` from the Go standard library. -/
def goContains (s pat : String) : Bool := listContains pat.data s.data

/-- `isSnapshotMount` (src/main.go): true iff the mount path contains the
substring `".snapshot"`. -/
def isSnapshotMount (mountPoint : String) : Bool :=
  goContains mountPoint ".snapshot"

/-- `UsageEntry` (src/main.go): a single snapshot of NFS usage.
`Mounts` models Go's `map[string]int64` as an association list. -/
structure UsageEntry where
  Timestamp : Int
  Mounts : List (String × Int)
  Total : Int
deriving DecidableEq, Repr

/-- The body of the `for mount, bytes := range entry.Mounts` loop of
`filterEntry` (src/main.go): keep non-snapshot mounts
(`filtered.Mounts[mount] = bytes` is `insertGo`, `filtered.Total += bytes`
is `addW`). -/
def filterStep (filtered : UsageEntry) (p : String × Int) : UsageEntry :=
  if ¬ isSnapshotMount p.1 then
    { filtered with
        Mounts := insertGo filtered.Mounts p.1 p.2
        Total := addW filtered.Total p.2 }
  else filtered

/-- `filterEntry` (src/main.go): a copy of the entry with `.snapshot`
mounts removed and the total recalculated. -/
def filterEntry (entry : UsageEntry) : UsageEntry :=
  entry.Mounts.foldl filterStep
    { Timestamp := entry.Timestamp, Mounts := [], Total := 0 }

/-- The body of the sampling loop of `main` (src/main.go lines 83–91): run
`df` on one mount (embedded as the oracle `df : String → Except String
Int`); on success store the byte count in the map and add it to the running
total, on error skip the mount (the warning goes to stderr and carries no
data). -/
def buildStep (df : String → Except String Int) (e : UsageEntry)
    (mount : String) : UsageEntry :=
  match df mount with
  | .ok bytes =>
    { e with
        Mounts := insertGo e.Mounts mount bytes
        Total := addW e.Total bytes }
  | .error _ => e

/-- The sampling loop of `main`, folded over the discovered mounts. -/
def buildCurrentEntry (ts : Int) (nfsMounts : List String)
    (df : String → Except String Int) : UsageEntry :=
  nfsMounts.foldl (buildStep df)
    { Timestamp := ts, Mounts := [], Total := 0 }

/-- The mounts successfully sampled by the loop of `main`: those whose `df`
invocation succeeds, paired with the parsed byte count. -/
def okPairs (df : String → Except String Int) (mounts : List String) :
    List (String × Int) :=
  mounts.filterMap (fun m =>
    match df m with
    | .ok bytes => some (m, bytes)
    | .error _ => none)

/-- ASCII whitespace, the fast path of Go's `unicode.IsSpace` (space, tab,
newline, vertical tab, form feed, carriage return).  Mount tables and `df`
output contain no non-ASCII space characters, so the Unicode `Zs` classes of
`unicode.IsSpace` are not modelled. -/
def goIsSpace (c : Char) : Bool :=
  c = ' ' || c = '\t' || c = '\n' || c = (Char.ofNat 11) || c = (Char.ofNat 12) || c = '\r'

/-- Split a character list at every occurrence of the separator character,
keeping empty pieces: Go `strings.Split(s, sep)` for a one-character
separator.  (`[[]]` on empty input, matching `strings.Split("", sep) =
[""]`.) -/
def splitChar (sep : Char) : List Char → List (List Char)
  | [] => [[]]
  | c :: rest =>
    match splitChar sep rest with
    | [] => [[]]
    | piece :: pieces =>
      if c = sep then [] :: piece :: pieces else (c :: piece) :: pieces

/-- Split a character list at every character satisfying `p`, keeping empty
pieces. -/
def splitPred (p : Char → Bool) : List Char → List (List Char)
  | [] => [[]]
  | c :: rest =>
    match splitPred p rest with
    | [] => [[]]
    | piece :: pieces =>
      if p c then [] :: piece :: pieces else (c :: piece) :: pieces

/-- `strings.Fields` from the Go standard library: split around runs of
whitespace, yielding the non-empty pieces. -/
def goFields (s : String) : List String :=
  ((splitPred goIsSpace s.data).filter (fun cs => ¬ cs.isEmpty)).map String.mk

/-- `strings.Join(elems, sep)`: concatenate with the separator between
consecutive elements. -/
def goJoin (sep : String) : List String → String
  | [] => ""
  | [x] => x
  | x :: xs => x ++ sep ++ goJoin sep xs

/-- One step of `bufio.ScanLines`: drop a single trailing `'\r'`. -/
def dropCR (cs : List Char) : List Char :=
  match cs.getLast? with
  | some c => if c = '\r' then cs.dropLast else cs
  | none => cs

/-- The token sequence produced by a `bufio.Scanner` with `ScanLines` over
`s`: split on `'\n'`, drop the empty token after a final newline, and strip
one trailing `'\r'` from every token. -/
def goLines (s : String) : List String :=
  let parts := splitChar '\n' s.data
  let parts :=
    match parts.getLast? with
    | some [] => parts.dropLast
    | _ => parts
  parts.map (fun cs => String.mk (dropCR cs))

/-- The body of the scanner loop of `getNFSMounts` (src/main.go lines
128–137): on a line with at least 3 whitespace-separated fields whose third
field is `"nfs"` or `"nfs4"` and whose second field (the mount point) is
not a snapshot mount, append the mount point. -/
def scanMountLine (mounts : List String) (line : String) : List String :=
  let fields := goFields line
  if 3 ≤ fields.length then
    let fsType := fields.getD 2 ""
    let mountPoint := fields.getD 1 ""
    if (fsType = "nfs" ∨ fsType = "nfs4") ∧ ¬ isSnapshotMount mountPoint then
      mounts ++ [mountPoint]
    else mounts
  else mounts

/-- `getNFSMounts` (src/main.go), with the text of `/proc/mounts` as an
explicit argument: scan the table line by line, collecting qualifying mount
points in table order. -/
def getNFSMounts (procMounts : String) : List String :=
  (goLines procMounts).foldl scanMountLine []

/-- The spec's description of mount-line selection (§4.1): the mount-path
value (second field) of a line whose filesystem-type (third field) is
exactly `"nfs"` or `"nfs4"` and whose mount-path does not contain the
substring `".snapshot"`; `none` when the line does not qualify (including
lines with fewer than 3 fields, which have no filesystem-type field). -/
def specSelectMount (line : String) : Option String :=
  let fields := goFields line
  if 3 ≤ fields.length ∧
      (fields.getD 2 "" = "nfs" ∨ fields.getD 2 "" = "nfs4") ∧
      ¬ goContains (fields.getD 1 "") ".snapshot" then
    some (fields.getD 1 "")
  else none

/-- The spec's description of mount discovery (§4.1): the selected
mount-path values, in table order. -/
def nfsMountsSpec (table : String) : List String :=
  (goLines table).filterMap specSelectMount

/-- All characters are decimal digits (and there is at least one):
the digit loop of Go's `strconv.ParseUint` in base 10. -/
def parseDigits : List Char → Option Nat
  | [] => none
  | cs => cs.foldl
      (fun acc c =>
        match acc with
        | none => none
        | some n => if c.isDigit then some (n * 10 + (c.toNat - '0'.toNat)) else none)
      (some 0)

/-- Go `strconv.ParseInt(s, 10, 64)`: an optional single leading `'+'` or
`'-'`, then one or more decimal digits, with the result required to fit in
`int64` (outside the range Go reports `ErrRange`, which the caller treats as
failure). -/
def parseInt64 (s : String) : Option Int :=
  match s.data with
  | [] => none
  | c :: rest =>
    let signAndDigits : Bool × List Char :=
      if c = '-' then (true, rest)
      else if c = '+' then (false, rest)
      else (false, c :: rest)
    match parseDigits signAndDigits.2 with
    | none => none
    | some n =>
      if signAndDigits.1 then
        if (n : Int) ≤ 2^63 then some (-(n : Int)) else none
      else
        if (n : Int) ≤ 2^63 - 1 then some (n : Int) else none

/-- `getDFBytes` (src/main.go), with the captured standard output of
`df -B1 <mount>` as an explicit argument: split the output on `'\n'`
(`strings.Split`), require at least two pieces, join every piece after the
header with single spaces (`strings.Join(lines[1:], " ")`), split the joined
data line on whitespace, require at least 3 fields, and parse field index 2
(the `Used` column) as a base-10 `int64`. -/
def getDFBytes (output : String) : Except String Int :=
  let lines := (splitChar '\n' output.data).map String.mk
  if lines.length < 2 then .error "unexpected df output"
  else
    let dataLine := goJoin " " (lines.drop 1)
    let fields := goFields dataLine
    if fields.length < 3 then .error "unexpected df output format"
    else
      match parseInt64 (fields.getD 2 "") with
      | some n => .ok n
      | none => .error "error parsing used bytes"

/-- The bit length of `n` (`⌊log₂ n⌋ + 1` for `0 < n`), for `n < 2^96` —
written as a bounded count so the kernel can evaluate it. -/
def bitLen (n : Nat) : Nat :=
  (List.range 96).countP (fun i => 2^i ≤ n)

/-- Round the natural number `n` to 53 significant bits, ties to even: the
exact value of the IEEE-754 `float64` nearest to `n` (Go's `float64(n)`),
for `n` far below the overflow threshold. -/
def f64ofNat (n : Nat) : Nat :=
  if n < 2^53 then n
  else
    let k := bitLen n - 53
    let d := 2^k
    let q := n / d
    let r := n % d
    let q' :=
      if 2 * r < d then q
      else if d < 2 * r then q + 1
      else if q % 2 = 0 then q else q + 1
    q' * d

/-- The exact value of Go's conversion `float64(i)` for an `int64` argument
(rounding to nearest, ties to even; symmetric in sign). -/
def f64ofInt (i : Int) : Int :=
  if i < 0 then -(f64ofNat i.natAbs : Int) else (f64ofNat i.natAbs : Int)

/-- Go `fmt.Sprintf("%.2f", x)` on the exact value `num / 2^e` of a
`float64` (every float formatted by this program is an integer divided by a
power of two, which `float64` division computes exactly): sign, integer
part, `'.'`, and exactly two fraction digits of the correctly rounded
decimal, ties to even — the rounding of Go's `strconv` fixed-precision
conversion.  Written over `Int`/`Nat` so the kernel can evaluate it. -/
def fmt2 (num : Int) (e : Nat) : String :=
  let neg := num < 0
  let a := num.natAbs * 100
  let d := 2^e
  let q := a / d
  let r := a % d
  let m := if 2 * r < d then q
           else if d < 2 * r then q + 1
           else if q % 2 = 0 then q else q + 1
  let fracPart := m % 100
  (if neg then "-" else "") ++ toString (m / 100) ++ "." ++
    (if fracPart < 10 then "0" ++ toString fracPart else toString fracPart)

/-- `formatBytes` (src/main.go): values `≥ 2^40` render as `"%.2f TiB"`,
all others as `"%.2f GiB"`.  `float64(bytes)/float64(GiB)` has the exact
value `f64ofInt bytes / 2^30` (division by a power of two is exact in
`float64`), likewise for TiB with `2^40`. -/
def formatBytes (bytes : Int) : String :=
  if 2^40 ≤ bytes then fmt2 (f64ofInt bytes) 40 ++ " TiB"
  else fmt2 (f64ofInt bytes) 30 ++ " GiB"

/-- `formatDiff` (src/main.go): `"+"` before non-negative differences,
`"-"` before the formatted Go negation `-diff` otherwise (the negation is
`int64` negation and wraps at `-2^63`). -/
def formatDiff (diff : Int) : String :=
  if 0 ≤ diff then "+" ++ formatBytes diff
  else "-" ++ formatBytes (negW diff)

/-- One row of the comparison table built by `printComparison`
(src/main.go): already formatted mount, oldest, current and difference
columns. -/
structure CompRow where
  mount : String
  oldest : String
  current : String
  diff : String
deriving DecidableEq, Repr

/-- The row list built by `printComparison` (src/main.go lines 241–259),
before column widths are computed: one row per mount of the current entry
(missing mounts of the oldest map read as `0`), then one `"(removed)"` row
per mount of the oldest entry absent from the current one, then the
`"total"` row.  Differences are Go `int64` subtractions/negations. -/
def comparisonRows (oldest current : UsageEntry) : List CompRow :=
  (current.Mounts.map (fun p =>
    let oldBytes := lookup0 oldest.Mounts p.1
    { mount := p.1
      oldest := formatBytes oldBytes
      current := formatBytes p.2
      diff := formatDiff (subW p.2 oldBytes) }))
  ++ ((oldest.Mounts.filter (fun p => ¬ (current.Mounts.lookup p.1).isSome)).map
      (fun p =>
        { mount := p.1
          oldest := formatBytes p.2
          current := "(removed)"
          diff := formatDiff (negW p.2) }))
  ++ [{ mount := "total"
        oldest := formatBytes oldest.Total
        current := formatBytes current.Total
        diff := formatDiff (subW current.Total oldest.Total) }]

/-- Which report `main` (src/main.go lines 110–115) prints. -/
inductive ReportMode where
  | comparison (oldest current : UsageEntry)
  | currentOnly (entry : UsageEntry)
deriving DecidableEq, Repr

/-- The output dispatch of `main` (src/main.go lines 110–115): the
comparison table of the filtered oldest entry against the current one when
the compare flag is set and the appended history has more than one entry,
otherwise the current-only report. -/
def reportOf (compare : Bool) (entries : List UsageEntry)
    (currentEntry : UsageEntry) : ReportMode :=
  if compare then
    match entries with
    | oldest :: _ :: _ => .comparison (filterEntry oldest) currentEntry
    | _ => .currentOnly currentEntry
  else .currentOnly currentEntry

/-- JSON values, restricted to the forms that occur in the persisted
`nfsusage.json` format (integers, strings, arrays, objects).  The textual
layer (`encoding/json`'s rendering with 2-space `MarshalIndent` and its
parser) lives in the Go standard library outside this repository and is
embedded at this value level; other JSON forms (fractional numbers,
booleans, null) make `loadEntries` fail and never appear in saved output. -/
inductive Json where
  | num (n : Int)
  | str (s : String)
  | arr (elems : List Json)
  | obj (fields : List (String × Json))

/-- Byte-lexicographic string order (Go's `sort.Strings` order on the UTF-8
byte representation; on valid UTF-8 this coincides with code-point order,
compared below). -/
def leKeyChars : List Char → List Char → Bool
  | [], _ => true
  | _ :: _, [] => false
  | a :: as, b :: bs =>
    if a = b then leKeyChars as bs else a.toNat < b.toNat

/-- `leKeyChars` on strings. -/
def leKey (a b : String) : Bool := leKeyChars a.data b.data

/-- Key-ascending insertion sort of an association list: `encoding/json`
marshals Go maps with their keys in sorted order. -/
def sortByKey (l : List (String × Int)) : List (String × Int) :=
  l.insertionSort (fun a b => leKey a.1 b.1)

/-- The JSON value `json.Marshal` produces for one `UsageEntry`: an object
with the tagged fields `timestamp`, `mounts` (map keys sorted) and `total`,
in struct order. -/
def encodeEntry (e : UsageEntry) : Json :=
  .obj [("timestamp", .num e.Timestamp),
        ("mounts", .obj ((sortByKey e.Mounts).map (fun p => (p.1, Json.num p.2)))),
        ("total", .num e.Total)]

/-- `saveEntries` (src/main.go) at the JSON-value level: the array
`json.MarshalIndent(entries, "", "  ")` serialises. -/
def encodeEntries (entries : List UsageEntry) : Json :=
  .arr (entries.map encodeEntry)

/-- `json.Unmarshal` of a JSON number into a Go `int64` field: the value
must be an integer in `int64` range, anything else is an unmarshalling
error. -/
def decodeInt64 : Json → Except String Int
  | .num n => if Int64Range n then .ok n else .error "number out of int64 range"
  | _ => .error "cannot unmarshal value into int64"

/-- One field of a JSON object decoded into a Go `map[string]int64` entry:
the value must be an `int64` number, and the binding is Go map assignment
(later duplicate keys overwrite earlier ones). -/
def decodeMountsStep (acc : List (String × Int)) (p : String × Json) :
    Except String (List (String × Int)) := do
  let v ← decodeInt64 p.2
  pure (insertGo acc p.1 v)

/-- `json.Unmarshal` of a JSON object into `map[string]int64`: decode the
fields in order. -/
def decodeMounts : Json → Except String (List (String × Int))
  | .obj fields => fields.foldlM decodeMountsStep []
  | _ => .error "cannot unmarshal value into map"

/-- One field of a JSON object decoded into a `UsageEntry`: the three
tagged struct fields are filled in, unknown fields are ignored, and a type
mismatch fails. -/
def decodeEntryStep (e : UsageEntry) (p : String × Json) :
    Except String UsageEntry :=
  if p.1 = "timestamp" then do
    let v ← decodeInt64 p.2
    pure { e with Timestamp := v }
  else if p.1 = "mounts" then do
    let m ← decodeMounts p.2
    pure { e with Mounts := m }
  else if p.1 = "total" then do
    let v ← decodeInt64 p.2
    pure { e with Total := v }
  else pure e

/-- `json.Unmarshal` of one array element into a `UsageEntry`: start from
the zero value and process the object's fields in order (later duplicates
overwrite). -/
def decodeEntry : Json → Except String UsageEntry
  | .obj fields =>
    fields.foldlM decodeEntryStep { Timestamp := 0, Mounts := [], Total := 0 }
  | _ => .error "cannot unmarshal value into UsageEntry"

/-- `loadEntries` (src/main.go) at the JSON-value level:
`json.Unmarshal(data, &entries)` for `entries : []UsageEntry`. -/
def decodeEntries : Json → Except String (List UsageEntry)
  | .arr elems => elems.mapM decodeEntry
  | _ => .error "cannot unmarshal value into []UsageEntry"

/-- The persistence flow of `main` (src/main.go lines 93–107), with the
history file's state embedded as `Option Json` (`none` = the file does not
exist, in which case `loadEntries`'s error satisfies `os.IsNotExist` and the
prior history is taken to be empty).  Returns the history that
`saveEntries` writes, or `none` when `main` aborts on a malformed file. -/
def mainHistory (fileContents : Option Json) (currentEntry : UsageEntry) :
    Option (List UsageEntry) :=
  match fileContents with
  | none => some ([] ++ [currentEntry])
  | some j =>
    match decodeEntries j with
    | .ok entries => some (entries ++ [currentEntry])
    | .error _ => none

/-- A `UsageEntry` as `json.Unmarshal` can actually produce it from a file:
distinct mount keys (Go map) and every numeric field in `int64` range.
Entries built by the program itself satisfy this. -/
def WFEntry (e : UsageEntry) : Prop :=
  NodupKeys e.Mounts ∧ Int64Range e.Timestamp ∧ Int64Range e.Total ∧
    ∀ p ∈ e.Mounts, Int64Range p.2

instance : DecidablePred WFEntry := fun e => by
  unfold WFEntry; infer_instance

/-! ## Helper lemmas -/

theorem wrap64_eq_self {n : Int} (h : Int64Range n) : wrap64 n = n := by
  obtain ⟨h1, h2⟩ := h
  unfold wrap64
  omega

theorem addW_eq_add {a b : Int} (h : Int64Range (a + b)) : addW a b = a + b :=
  wrap64_eq_self h

theorem foldl_addW_eq_add {l : List Int} :
    ∀ {t : Int}, 0 ≤ t → (∀ v ∈ l, 0 ≤ v) → t + l.sum < 2^63 →
      l.foldl addW t = t + l.sum := by
  induction l with
  | nil => intro t _ _ _; simp
  | cons v rest ih =>
    intro t ht hnn hlt
    have hv : 0 ≤ v := hnn v (List.mem_cons_self _ _)
    have hrest : 0 ≤ rest.sum :=
      List.sum_nonneg (fun x hx => hnn x (List.mem_cons_of_mem _ hx))
    have hsum : t + (v :: rest).sum = t + v + rest.sum := by
      simp [List.sum_cons]; ring
    have hstep : addW t v = t + v := by
      apply addW_eq_add
      constructor
      · omega
      · have : t + v + rest.sum < 2^63 := by rw [← hsum]; exact hlt
        omega
    rw [List.foldl_cons, hstep,
      ih (by omega) (fun x hx => hnn x (List.mem_cons_of_mem _ hx))
        (by rw [← hsum]; exact hlt)]
    omega

theorem sumW_eq_sum {l : List Int} (hnn : ∀ v ∈ l, 0 ≤ v)
    (hlt : l.sum < 2^63) : sumW l = l.sum := by
  unfold sumW
  rw [foldl_addW_eq_add le_rfl hnn (by omega)]
  omega

theorem sum_sublist_le {l' l : List Int} (hs : List.Sublist l' l)
    (hnn : ∀ v ∈ l, 0 ≤ v) : l'.sum ≤ l.sum := by
  induction hs with
  | slnil => simp
  | cons v hsub ih =>
    have hv : 0 ≤ v := hnn v (List.mem_cons_self _ _)
    have := ih (fun x hx => hnn x (List.mem_cons_of_mem _ hx))
    simp [List.sum_cons]
    omega
  | cons₂ v hsub ih =>
    have := ih (fun x hx => hnn x (List.mem_cons_of_mem _ hx))
    simp [List.sum_cons]
    omega

theorem lookup_none_iff {l : List (String × Int)} {k : String} :
    l.lookup k = none ↔ k ∉ keysOf l := by
  induction l with
  | nil => simp [List.lookup, keysOf]
  | cons p rest ih =>
    obtain ⟨k', v'⟩ := p
    by_cases h : k = k'
    · subst h
      simp [List.lookup, keysOf]
    · have hbeq : (k == k') = false := beq_eq_false_iff_ne.mpr h
      simp [List.lookup, hbeq, keysOf, ih, h]

theorem insertGo_fresh {l : List (String × Int)} {k : String} {v : Int}
    (h : k ∉ keysOf l) : insertGo l k v = l ++ [(k, v)] := by
  induction l with
  | nil => simp [insertGo]
  | cons p rest ih =>
    obtain ⟨k', v'⟩ := p
    simp only [keysOf, List.map_cons, List.mem_cons] at h
    push_neg at h
    simp only [insertGo]
    rw [if_neg (fun hh => h.1 hh.symm), ih h.2]
    simp

theorem filterStep_foldl_char (l : List (String × Int)) :
    ∀ acc : UsageEntry, (∀ p ∈ l, p.1 ∉ keysOf acc.Mounts) →
      (l.map Prod.fst).Nodup →
      l.foldl filterStep acc =
        ⟨acc.Timestamp,
         acc.Mounts ++ l.filter (fun p => !(isSnapshotMount p.1)),
         ((l.filter (fun p => !(isSnapshotMount p.1))).map Prod.snd).foldl
           addW acc.Total⟩ := by
  induction l with
  | nil => intro acc _ _; simp
  | cons p rest ih =>
    intro acc hfresh hnodup
    have hnodup' : (rest.map Prod.fst).Nodup := (List.nodup_cons.mp (by simpa using hnodup)).2
    have hhead : p.1 ∉ rest.map Prod.fst := (List.nodup_cons.mp (by simpa using hnodup)).1
    by_cases hs : isSnapshotMount p.1
    · have hstep : filterStep acc p = acc := by simp [filterStep, hs]
      rw [List.foldl_cons, hstep,
        ih acc (fun q hq => hfresh q (List.mem_cons_of_mem _ hq)) hnodup']
      simp [List.filter_cons, hs]
    · have hfr : p.1 ∉ keysOf acc.Mounts := hfresh p (List.mem_cons_self _ _)
      have hstep : filterStep acc p =
          ⟨acc.Timestamp, acc.Mounts ++ [p], addW acc.Total p.2⟩ := by
        simp [filterStep, hs, insertGo_fresh hfr]
      rw [List.foldl_cons, hstep,
        ih ⟨acc.Timestamp, acc.Mounts ++ [p], addW acc.Total p.2⟩
          (fun q hq => by
            simp only [keysOf, List.map_append, List.map_cons, List.map_nil]
            intro hmem
            rcases List.mem_append.mp hmem with hacc | hp
            · exact hfresh q (List.mem_cons_of_mem _ hq) hacc
            · rcases List.mem_cons.mp hp with he | hn
              · exact hhead (he ▸ List.mem_map_of_mem Prod.fst hq)
              · exact absurd hn (List.not_mem_nil _))
          hnodup']
      simp [List.filter_cons, hs]

theorem filterEntry_char {entry : UsageEntry}
    (h : NodupKeys entry.Mounts) :
    filterEntry entry =
      ⟨entry.Timestamp,
       entry.Mounts.filter (fun p => !(isSnapshotMount p.1)),
       sumW ((entry.Mounts.filter (fun p => !(isSnapshotMount p.1))).map
         Prod.snd)⟩ := by
  unfold filterEntry sumW
  rw [filterStep_foldl_char entry.Mounts
    ⟨entry.Timestamp, [], 0⟩ (by simp [keysOf]) h]
  simp

theorem buildStep_foldl_char (df : String → Except String Int)
    (l : List String) :
    ∀ acc : UsageEntry, (∀ m ∈ l, m ∉ keysOf acc.Mounts) → l.Nodup →
      l.foldl (buildStep df) acc =
        ⟨acc.Timestamp,
         acc.Mounts ++ okPairs df l,
         ((okPairs df l).map Prod.snd).foldl addW acc.Total⟩ := by
  induction l with
  | nil => intro acc _ _; simp [okPairs]
  | cons m rest ih =>
    intro acc hfresh hnodup
    have hnodup' : rest.Nodup := (List.nodup_cons.mp hnodup).2
    have hhead : m ∉ rest := (List.nodup_cons.mp hnodup).1
    have hok : okPairs df (m :: rest) =
        (match df m with
         | .ok bytes => [(m, bytes)]
         | .error _ => []) ++ okPairs df rest := by
      cases hdf : df m <;> simp [okPairs, hdf]
    cases hdf : df m with
    | error e =>
      have hstep : buildStep df acc m = acc := by simp [buildStep, hdf]
      rw [List.foldl_cons, hstep,
        ih acc (fun q hq => hfresh q (List.mem_cons_of_mem _ hq)) hnodup']
      rw [hok, hdf]
      simp
    | ok bytes =>
      have hfr : m ∉ keysOf acc.Mounts := hfresh m (List.mem_cons_self _ _)
      have hstep : buildStep df acc m =
          ⟨acc.Timestamp, acc.Mounts ++ [(m, bytes)], addW acc.Total bytes⟩ := by
        simp [buildStep, hdf, insertGo_fresh hfr]
      rw [List.foldl_cons, hstep,
        ih ⟨acc.Timestamp, acc.Mounts ++ [(m, bytes)], addW acc.Total bytes⟩
          (fun q hq => by
            simp only [keysOf, List.map_append, List.map_cons, List.map_nil]
            intro hmem
            rcases List.mem_append.mp hmem with hacc | hm
            · exact hfresh q (List.mem_cons_of_mem _ hq) hacc
            · rcases List.mem_cons.mp hm with he | hn
              · exact hhead (he ▸ hq)
              · exact absurd hn (List.not_mem_nil _))
          hnodup']
      rw [hok, hdf]
      simp

theorem buildCurrentEntry_char {ts : Int} {mounts : List String}
    {df : String → Except String Int} (h : mounts.Nodup) :
    buildCurrentEntry ts mounts df =
      ⟨ts, okPairs df mounts, sumW ((okPairs df mounts).map Prod.snd)⟩ := by
  unfold buildCurrentEntry sumW
  rw [buildStep_foldl_char df mounts ⟨ts, [], 0⟩ (by simp [keysOf]) h]
  simp

theorem lookup_some_iff_mem {l : List (String × Int)} {k : String} {v : Int}
    (h : NodupKeys l) : l.lookup k = some v ↔ (k, v) ∈ l := by
  induction l with
  | nil => simp [List.lookup]
  | cons p rest ih =>
    obtain ⟨k', v'⟩ := p
    have h0 : (k' :: keysOf rest).Nodup := h
    have hsplit := List.nodup_cons.mp h0
    have h' : NodupKeys rest := hsplit.2
    have hk' : k' ∉ keysOf rest := hsplit.1
    by_cases hk : k = k'
    · subst hk
      have hl : ((k, v') :: rest).lookup k = some v' := by simp [List.lookup]
      rw [hl]
      constructor
      · intro hv
        injection hv with hv
        exact hv ▸ List.mem_cons_self _ _
      · intro hmem
        rcases List.mem_cons.mp hmem with he | hm
        · injection he with h1 h2
          rw [h2]
        · exact absurd (List.mem_map_of_mem Prod.fst hm) hk'
    · have hbeq : (k == k') = false := beq_eq_false_iff_ne.mpr hk
      simp [List.lookup, hbeq, ih h', List.mem_cons, Prod.ext_iff, hk]

theorem lookup_eq_of_perm {l₁ l₂ : List (String × Int)}
    (hp : List.Perm l₁ l₂) (h : NodupKeys l₁) (k : String) :
    l₁.lookup k = l₂.lookup k := by
  have hkeys : List.Perm (keysOf l₁) (keysOf l₂) := hp.map Prod.fst
  have h₂ : NodupKeys l₂ := (hkeys.nodup_iff).mp h
  cases hl : l₁.lookup k with
  | none =>
    have : k ∉ keysOf l₂ := fun hm =>
      (lookup_none_iff.mp hl) (hkeys.mem_iff.mpr hm)
    exact ((lookup_none_iff.mpr this)).symm
  | some v =>
    have hm : (k, v) ∈ l₂ := hp.subset ((lookup_some_iff_mem h).mp hl)
    exact ((lookup_some_iff_mem h₂).mpr hm).symm

theorem sortByKey_perm (l : List (String × Int)) :
    List.Perm (sortByKey l) l :=
  List.perm_insertionSort _ l

theorem nodupKeys_sortByKey {l : List (String × Int)} (h : NodupKeys l) :
    NodupKeys (sortByKey l) :=
  (((sortByKey_perm l).map Prod.fst).nodup_iff).mpr h

theorem lookup_sortByKey {l : List (String × Int)} (h : NodupKeys l)
    (k : String) : (sortByKey l).lookup k = l.lookup k :=
  lookup_eq_of_perm (sortByKey_perm l) (nodupKeys_sortByKey h) k

theorem decodeInt64_num {n : Int} (h : Int64Range n) :
    decodeInt64 (.num n) = .ok n := by
  simp [decodeInt64, h]

theorem decodeMounts_go (l : List (String × Int)) :
    ∀ acc : List (String × Int),
      (∀ p ∈ l, Int64Range p.2) → (∀ p ∈ l, p.1 ∉ keysOf acc) →
      (l.map Prod.fst).Nodup →
      (l.map (fun p => (p.1, Json.num p.2))).foldlM decodeMountsStep acc =
        .ok (acc ++ l) := by
  induction l with
  | nil =>
    intro acc _ _ _
    rw [List.append_nil]
    rfl
  | cons p rest ih =>
    intro acc hv hfresh hnodup
    have hrange : Int64Range p.2 := hv p (List.mem_cons_self _ _)
    have hfr : p.1 ∉ keysOf acc := hfresh p (List.mem_cons_self _ _)
    have hstep : decodeMountsStep acc (p.1, Json.num p.2) = .ok (acc ++ [p]) := by
      simp [decodeMountsStep, decodeInt64_num hrange, insertGo_fresh hfr]
    have hnodup' : (rest.map Prod.fst).Nodup := (List.nodup_cons.mp hnodup).2
    have hhead : p.1 ∉ rest.map Prod.fst := (List.nodup_cons.mp hnodup).1
    rw [List.map_cons, List.foldlM_cons, hstep]
    have hbind : ∀ (g : List (String × Int) → Except String (List (String × Int))),
        (Except.ok (acc ++ [p]) >>= g) = g (acc ++ [p]) := fun g => rfl
    rw [hbind]
    rw [ih (acc ++ [p])
      (fun q hq => hv q (List.mem_cons_of_mem _ hq))
      (fun q hq => by
        simp only [keysOf, List.map_append, List.map_cons, List.map_nil]
        intro hmem
        rcases List.mem_append.mp hmem with hacc | hp
        · exact hfresh q (List.mem_cons_of_mem _ hq) hacc
        · rcases List.mem_cons.mp hp with he | hn
          · exact hhead (he ▸ List.mem_map_of_mem Prod.fst hq)
          · exact absurd hn (List.not_mem_nil _))
      hnodup']
    simp

theorem decodeMounts_encode {l : List (String × Int)}
    (hv : ∀ p ∈ l, Int64Range p.2) (hn : NodupKeys l) :
    decodeMounts (.obj (l.map (fun p => (p.1, Json.num p.2)))) = .ok l := by
  show (l.map (fun p => (p.1, Json.num p.2))).foldlM decodeMountsStep [] = .ok l
  rw [decodeMounts_go l [] hv (by simp [keysOf]) hn]
  simp

/-- What decoding gives back for an encoded entry: the same entry with its
mount map in sorted-key order. -/
def sortEntry (e : UsageEntry) : UsageEntry :=
  ⟨e.Timestamp, sortByKey e.Mounts, e.Total⟩

theorem decodeEntry_encode {e : UsageEntry} (hwf : WFEntry e) :
    decodeEntry (encodeEntry e) = .ok (sortEntry e) := by
  obtain ⟨hn, hts, htot, hv⟩ := hwf
  have hsv : ∀ p ∈ sortByKey e.Mounts, Int64Range p.2 := fun p hp =>
    hv p ((sortByKey_perm e.Mounts).subset hp)
  have hsn : NodupKeys (sortByKey e.Mounts) := nodupKeys_sortByKey hn
  have hmounts := decodeMounts_encode hsv hsn
  show ([("timestamp", Json.num e.Timestamp),
        ("mounts", Json.obj ((sortByKey e.Mounts).map (fun p => (p.1, Json.num p.2)))),
        ("total", Json.num e.Total)].foldlM decodeEntryStep
      { Timestamp := 0, Mounts := [], Total := 0 }) = .ok (sortEntry e)
  simp only [List.foldlM_cons, List.foldlM_nil, decodeEntryStep,
    decodeInt64_num hts, decodeInt64_num htot, hmounts]
  rfl

theorem decodeEntries_encode {h : List UsageEntry}
    (hwf : ∀ e ∈ h, WFEntry e) :
    decodeEntries (encodeEntries h) = .ok (h.map sortEntry) := by
  induction h with
  | nil => rfl
  | cons e rest ih =>
    have he := decodeEntry_encode (hwf e (List.mem_cons_self _ _))
    have hr := ih (fun x hx => hwf x (List.mem_cons_of_mem _ hx))
    show ((e :: rest).map encodeEntry).mapM decodeEntry =
      .ok ((e :: rest).map sortEntry)
    have hr' : (rest.map encodeEntry).mapM decodeEntry =
        .ok (rest.map sortEntry) := hr
    rw [List.map_cons, List.mapM_cons, he, hr']
    rfl

theorem scanMountLine_eq (mounts : List String) (line : String) :
    scanMountLine mounts line = mounts ++ (specSelectMount line).toList := by
  simp only [scanMountLine, specSelectMount, isSnapshotMount]
  split_ifs <;> simp_all

theorem foldl_scanMountLine (lines : List String) :
    ∀ acc : List String,
      lines.foldl scanMountLine acc = acc ++ lines.filterMap specSelectMount := by
  induction lines with
  | nil => intro acc; simp
  | cons line rest ih =>
    intro acc
    rw [List.foldl_cons, scanMountLine_eq, ih]
    cases h : specSelectMount line <;> simp [List.filterMap_cons, h]

theorem getNFSMounts_eq_spec (procMounts : String) :
    getNFSMounts procMounts = nfsMountsSpec procMounts := by
  unfold getNFSMounts nfsMountsSpec
  rw [foldl_scanMountLine]
  simp

/-- C5: for every captured `df` output, the parser succeeds with value `n`
exactly when the data line — all lines after the (skipped) header joined
with single spaces — has at least 3 whitespace-separated fields and its
third field is a valid base-10 `int64`, in which case `n` is that parsed
third field; in every other case it fails with a parse error.  (When the
output has no newline at all the code reports `"unexpected df output"`
before joining; the joined tail is then empty, so the field-count condition
is equally violated and the equivalence still holds.) -/
theorem C5_dfParse (output : String) (n : Int) :
    getDFBytes output = .ok n ↔
      3 ≤ (goFields (goJoin " "
            (((splitChar '\n' output.data).map String.mk).drop 1))).length ∧
        parseInt64 ((goFields (goJoin " "
            (((splitChar '\n' output.data).map String.mk).drop 1))).getD 2 "")
          = some n := by
  show (if ((splitChar '\n' output.data).map String.mk).length < 2 then
      (Except.error "unexpected df output" : Except String Int)
    else
      if (goFields (goJoin " "
          (((splitChar '\n' output.data).map String.mk).drop 1))).length < 3 then
        .error "unexpected df output format"
      else
        match parseInt64 ((goFields (goJoin " "
            (((splitChar '\n' output.data).map String.mk).drop 1))).getD 2 "") with
        | some m => .ok m
        | none => .error "error parsing used bytes") = .ok n ↔ _
  by_cases h2 : ((splitChar '\n' output.data).map String.mk).length < 2
  · have hdrop : ((splitChar '\n' output.data).map String.mk).drop 1 = [] := by
      rcases hl : (splitChar '\n' output.data).map String.mk with _ | ⟨a, _ | ⟨b, t⟩⟩
      · rfl
      · rfl
      · rw [hl] at h2
        exact absurd h2 (by simp)
    rw [if_pos h2, hdrop]
    have hfields : goFields (goJoin " " ([] : List String)) = [] := by rfl
    rw [hfields]
    simp
  · rw [if_neg h2]
    by_cases h3 : (goFields (goJoin " "
        (((splitChar '\n' output.data).map String.mk).drop 1))).length < 3
    · rw [if_pos h3]
      constructor
      · intro hh; exact absurd hh (by simp)
      · intro hh; omega
    · rw [if_neg h3]
      cases hp : parseInt64 ((goFields (goJoin " "
          (((splitChar '\n' output.data).map String.mk).drop 1))).getD 2 "") with
      | none => simp
      | some m =>
        have hlen : 3 ≤ (goFields (goJoin " "
            (((splitChar '\n' output.data).map String.mk).drop 1))).length := by omega
        simp [hlen, Except.ok.injEq]
        intro _
        simpa [List.drop_one] using hlen

/-- C5 witness: the equivalence instantiated on a concrete `df` output
(header plus one data line whose third field is `42`). -/
theorem C5_dfParse_witness :
    getDFBytes "h\nx y 42 z\n" = .ok 42 :=
  (C5_dfParse "h\nx y 42 z\n" 42).mpr ⟨by decide, by decide⟩

/-! ## Claims -/

/-- C1 counterexample: when `/proc/mounts` lists the same mount point twice
(legal for shadowed mounts) and both `df` calls succeed, the Go map keeps a
single entry but `Total +=` runs twice, so the current sample's `Total` (2)
differs from the sum of its `Mounts` values (1).  The claim as stated is
therefore false.  (The first conjunct shows the duplicated discovery list
is reachable: `getNFSMounts` returns `/a` twice for such a table.) -/
theorem C1_counterexample :
    getNFSMounts "dev /a nfs rw 0 0\ndev2 /a nfs rw 0 0\n" = ["/a", "/a"] ∧
      (buildCurrentEntry 0 ["/a", "/a"] (fun _ => .ok 1)).Total ≠
        sumW ((buildCurrentEntry 0 ["/a", "/a"] (fun _ => .ok 1)).Mounts.map
          Prod.snd) := by
  refine ⟨by decide, by decide⟩

/-- C1 (amended): for the fresh current sample built in `main`, provided the
discovered mount paths are pairwise distinct (which duplicate mount-table
lines can violate), `Total` equals the `int64` sum of the `Mounts` values,
the map holds exactly the successfully sampled mounts (mounts whose
sampling failed are skipped); and for any filtered copy produced by
`filterEntry` from a well-formed (distinct-keys) entry, `Total` equals the
`int64` sum of its `Mounts` values. -/
theorem C1_total_invariant (ts : Int) (mounts : List String)
    (df : String → Except String Int) (hnd : mounts.Nodup)
    (entry : UsageEntry) (hwf : NodupKeys entry.Mounts) :
    (buildCurrentEntry ts mounts df).Total =
        sumW ((buildCurrentEntry ts mounts df).Mounts.map Prod.snd) ∧
      (buildCurrentEntry ts mounts df).Mounts = okPairs df mounts ∧
      (filterEntry entry).Total =
        sumW ((filterEntry entry).Mounts.map Prod.snd) := by
  refine ⟨?_, ?_, ?_⟩
  · rw [buildCurrentEntry_char hnd]
  · rw [buildCurrentEntry_char hnd]
  · rw [filterEntry_char hwf]

/-- C1 witness: a concrete run with two distinct mounts, one of which fails
to sample. -/
theorem C1_total_invariant_witness :
    (buildCurrentEntry 7 ["/a", "/b"]
        (fun m => if m = "/a" then .ok 5 else .error "df failed")).Total =
      sumW ((buildCurrentEntry 7 ["/a", "/b"]
        (fun m => if m = "/a" then .ok 5 else .error "df failed")).Mounts.map
          Prod.snd) :=
  (C1_total_invariant 7 ["/a", "/b"]
    (fun m => if m = "/a" then .ok 5 else .error "df failed")
    (by decide) ⟨0, [("/x", 1)], 1⟩ (by decide)).1

/-- C2 counterexample: the sample with the single mount `"/x/.snapshot" ↦
-5` satisfies the total-equals-sum invariant (its keys are distinct and its
`Total` is `-5`), yet filtering removes the negative-valued snapshot mount
and raises `Total` to `0 > -5`, so the claimed `≤` fails as stated. -/
theorem C2_counterexample :
    NodupKeys ((⟨0, [("/x/.snapshot", -5)], -5⟩ : UsageEntry).Mounts) ∧
      (⟨0, [("/x/.snapshot", -5)], -5⟩ : UsageEntry).Total =
        sumW ((⟨0, [("/x/.snapshot", -5)], -5⟩ : UsageEntry).Mounts.map
          Prod.snd) ∧
      ¬ (filterEntry ⟨0, [("/x/.snapshot", -5)], -5⟩).Total ≤
          (⟨0, [("/x/.snapshot", -5)], -5⟩ : UsageEntry).Total := by
  refine ⟨by decide, by decide, by decide⟩

/-- C2 (amended): for every well-formed (distinct-keys) input sample,
`filterEntry` keeps the timestamp, keeps exactly the entries whose path
does not contain `".snapshot"` (same byte values), recomputes `Total` as
the `int64` sum of the remaining values; and its `Total` does not exceed
the input's `Total` provided the input satisfies the total-equals-sum
invariant, all mount values are non-negative, and their mathematical sum
stays below `2^63` (no `int64` overflow). -/
theorem C2_filterEntry_spec (entry : UsageEntry)
    (hnd : NodupKeys entry.Mounts) :
    (filterEntry entry).Timestamp = entry.Timestamp ∧
    (filterEntry entry).Mounts =
      entry.Mounts.filter (fun p => !(isSnapshotMount p.1)) ∧
    (filterEntry entry).Total =
      sumW (((filterEntry entry).Mounts).map Prod.snd) ∧
    (entry.Total = sumW (entry.Mounts.map Prod.snd) →
      (∀ p ∈ entry.Mounts, 0 ≤ p.2) →
      (entry.Mounts.map Prod.snd).sum < 2^63 →
      (filterEntry entry).Total ≤ entry.Total) := by
  refine ⟨by rw [filterEntry_char hnd], by rw [filterEntry_char hnd],
    by rw [filterEntry_char hnd], ?_⟩
  intro hinv hnn hsum
  have hnnv : ∀ v ∈ entry.Mounts.map Prod.snd, 0 ≤ v := by
    intro v hv
    obtain ⟨p, hp, rfl⟩ := List.mem_map.mp hv
    exact hnn p hp
  have hsub : List.Sublist
      ((entry.Mounts.filter (fun p => !(isSnapshotMount p.1))).map Prod.snd)
      (entry.Mounts.map Prod.snd) :=
    (List.filter_sublist _).map Prod.snd
  have hfnn : ∀ v ∈ (entry.Mounts.filter
      (fun p => !(isSnapshotMount p.1))).map Prod.snd, 0 ≤ v :=
    fun v hv => hnnv v (hsub.subset hv)
  have hfle := sum_sublist_le hsub hnnv
  have h1 : sumW ((entry.Mounts.filter
        (fun p => !(isSnapshotMount p.1))).map Prod.snd) =
      ((entry.Mounts.filter (fun p => !(isSnapshotMount p.1))).map
        Prod.snd).sum :=
    sumW_eq_sum hfnn (by omega)
  have h2 : sumW (entry.Mounts.map Prod.snd) =
      (entry.Mounts.map Prod.snd).sum :=
    sumW_eq_sum hnnv hsum
  rw [filterEntry_char hnd, hinv]
  show sumW ((entry.Mounts.filter (fun p => !(isSnapshotMount p.1))).map
      Prod.snd) ≤ sumW (entry.Mounts.map Prod.snd)
  omega

/-- C2 witness: a concrete well-formed sample with one snapshot mount and
one regular mount. -/
theorem C2_filterEntry_spec_witness :
    (filterEntry ⟨3, [("/x/.snapshot", 4), ("/b", 2)], 6⟩).Total ≤
      (⟨3, [("/x/.snapshot", 4), ("/b", 2)], 6⟩ : UsageEntry).Total :=
  (C2_filterEntry_spec ⟨3, [("/x/.snapshot", 4), ("/b", 2)], 6⟩
    (by decide)).2.2.2 (by decide) (by decide) (by decide)

/-- C3: serialising a history of well-formed samples with `saveEntries`'
encoding and decoding the result with `loadEntries`' decoding yields a
sequence of the same length in which each position holds the same
timestamp, the same total, and the same mount-path-to-bytes mapping. -/
theorem C3_roundTrip (h : List UsageEntry) (hwf : ∀ e ∈ h, WFEntry e) :
    ∃ h' : List UsageEntry,
      decodeEntries (encodeEntries h) = .ok h' ∧
      h'.length = h.length ∧
      List.Forall₂ (fun a b =>
        a.Timestamp = b.Timestamp ∧ a.Total = b.Total ∧
        ∀ k, a.Mounts.lookup k = b.Mounts.lookup k) h' h := by
  refine ⟨h.map sortEntry, decodeEntries_encode hwf, by simp, ?_⟩
  induction h with
  | nil => exact List.Forall₂.nil
  | cons e rest ih =>
    exact List.Forall₂.cons
      ⟨rfl, rfl, fun k =>
        lookup_sortByKey (hwf e (List.mem_cons_self _ _)).1 k⟩
      (ih (fun x hx => hwf x (List.mem_cons_of_mem _ hx)))

/-- C3 witness: a concrete two-entry history. -/
theorem C3_roundTrip_witness :
    ∃ h' : List UsageEntry,
      decodeEntries (encodeEntries
        ([⟨5, [("/b", 3), ("/a", 7)], 10⟩, ⟨6, [], 0⟩] : List UsageEntry)) =
          .ok h' ∧
      h'.length = ([⟨5, [("/b", 3), ("/a", 7)], 10⟩, ⟨6, [], 0⟩] :
        List UsageEntry).length ∧
      List.Forall₂ (fun a b =>
        a.Timestamp = b.Timestamp ∧ a.Total = b.Total ∧
        ∀ k, a.Mounts.lookup k = b.Mounts.lookup k) h'
        ([⟨5, [("/b", 3), ("/a", 7)], 10⟩, ⟨6, [], 0⟩] : List UsageEntry) :=
  C3_roundTrip [⟨5, [("/b", 3), ("/a", 7)], 10⟩, ⟨6, [], 0⟩] (by decide)

/-- C4: mount discovery returns exactly the second fields of mount-table
lines whose third field is exactly `"nfs"` or `"nfs4"` and whose mount path
does not contain `".snapshot"`, in table order; on the spec's three-line
example table only `/mnt/nfs1` is returned. -/
theorem C4_mountDiscovery :
    (∀ table : String, getNFSMounts table = nfsMountsSpec table) ∧
    getNFSMounts ("device /mnt/nfs1.snapshot nfs4 rw 0 0\n" ++
        "device /mnt/nfs1 nfs4 rw 0 0\n" ++
        "device /mnt/local ext4 rw 0 0\n") = ["/mnt/nfs1"] :=
  ⟨getNFSMounts_eq_spec, by decide⟩

/-- C4 witness: the refinement instantiated at a concrete one-line table. -/
theorem C4_mountDiscovery_witness :
    getNFSMounts "dev /m nfs rw 0 0\n" = nfsMountsSpec "dev /m nfs rw 0 0\n" :=
  C4_mountDiscovery.1 "dev /m nfs rw 0 0\n"

/-- C6 counterexample: at `diff = -2^63` the Go negation `-diff` wraps back
to `-2^63`, so `formatDiff` does not produce `"-"` followed by the
magnitude `2^63` formatted by the TiB/GiB rule — it produces a doubled
minus sign instead. -/
theorem C6_counterexample :
    formatDiff (-(2^63)) = "--8589934592.00 GiB" ∧
      formatBytes (2^63) = "8388608.00 TiB" ∧
      formatDiff (-(2^63)) ≠ "-" ++ formatBytes (2^63) := by
  refine ⟨by decide, by decide, by decide⟩

/-- C6 (amended): `formatBytes` renders values `≥ 2^40` as `"%.2f TiB"` and
all other values as `"%.2f GiB"` (with the spec's three concrete example
renderings); `formatDiff` prepends `"+"` to non-negative differences, and
for negative differences strictly greater than `-2^63` it prepends `"-"` to
the magnitude formatted by the same rule (at `-2^63` itself the `int64`
negation wraps — see C10). -/
theorem C6_formatting :
    formatBytes 1073741824 = "1.00 GiB" ∧
    formatBytes 1099511627776 = "1.00 TiB" ∧
    formatBytes 500000000 = "0.47 GiB" ∧
    (∀ b : Int, 2^40 ≤ b → formatBytes b = fmt2 (f64ofInt b) 40 ++ " TiB") ∧
    (∀ b : Int, b < 2^40 → formatBytes b = fmt2 (f64ofInt b) 30 ++ " GiB") ∧
    (∀ d : Int, 0 ≤ d → formatDiff d = "+" ++ formatBytes d) ∧
    (∀ d : Int, -(2^63) < d → d < 0 →
      formatDiff d = "-" ++ formatBytes (-d)) ∧
    formatDiff 2147483648 = "+2.00 GiB" ∧
    formatDiff (-1073741824) = "-1.00 GiB" := by
  refine ⟨by decide, by decide, by decide, ?_, ?_, ?_, ?_, by decide,
    by decide⟩
  · intro b hb
    rw [formatBytes, if_pos hb]
  · intro b hb
    rw [formatBytes, if_neg (by omega)]
  · intro d hd
    simp [formatDiff, hd]
  · intro d h1 h2
    have hneg : negW d = -d := wrap64_eq_self ⟨by omega, by omega⟩
    rw [formatDiff, if_neg (by omega), hneg]

/-- C6 witness: the negative-difference rule applied at `-2^30`. -/
theorem C6_formatting_witness :
    formatDiff (-(2^30)) = "-" ++ formatBytes (-(-(2^30))) :=
  C6_formatting.2.2.2.2.2.2.1 (-(2^30)) (by decide) (by decide)

/-- C7: in the comparison table, every mount of the current sample yields a
row with its formatted value in the oldest sample (`0` when absent), its
formatted current value, and the formatted signed `int64` difference
(current minus oldest); every mount of the oldest sample absent from the
current one yields a row whose current column is the literal `"(removed)"`
and whose difference is the `int64` negation of the oldest value; the final
row is the `"total"` row comparing the two `Total` fields; and the spec's
concrete comparison scenario produces exactly its three expected rows. -/
theorem C7_comparisonRows (oldest current : UsageEntry) :
    (∀ p ∈ current.Mounts,
      ({ mount := p.1, oldest := formatBytes (lookup0 oldest.Mounts p.1),
         current := formatBytes p.2,
         diff := formatDiff (subW p.2 (lookup0 oldest.Mounts p.1)) } :
        CompRow) ∈ comparisonRows oldest current) ∧
    (∀ p ∈ oldest.Mounts, current.Mounts.lookup p.1 = none →
      ({ mount := p.1, oldest := formatBytes p.2, current := "(removed)",
         diff := formatDiff (negW p.2) } : CompRow) ∈
        comparisonRows oldest current) ∧
    (comparisonRows oldest current).getLast? =
      some { mount := "total", oldest := formatBytes oldest.Total,
             current := formatBytes current.Total,
             diff := formatDiff (subW current.Total oldest.Total) } ∧
    comparisonRows ⟨0, [("/mnt/a", 1073741824)], 1073741824⟩
        ⟨1, [("/mnt/a", 2147483648), ("/mnt/b", 1073741824)], 3221225472⟩ =
      [⟨"/mnt/a", "1.00 GiB", "2.00 GiB", "+1.00 GiB"⟩,
       ⟨"/mnt/b", "0.00 GiB", "1.00 GiB", "+1.00 GiB"⟩,
       ⟨"total", "1.00 GiB", "3.00 GiB", "+2.00 GiB"⟩] := by
  refine ⟨?_, ?_, ?_, by decide⟩
  · intro p hp
    unfold comparisonRows
    exact List.mem_append.mpr (Or.inl (List.mem_append.mpr
      (Or.inl (List.mem_map.mpr ⟨p, hp, rfl⟩))))
  · intro p hp hnone
    unfold comparisonRows
    refine List.mem_append.mpr (Or.inl (List.mem_append.mpr (Or.inr ?_)))
    exact List.mem_map.mpr
      ⟨p, List.mem_filter.mpr ⟨hp, by simp [hnone]⟩, rfl⟩
  · unfold comparisonRows
    exact List.getLast?_concat _

/-- C7 witness: the current-mount rule applied to `/mnt/a` of the spec's
comparison scenario. -/
theorem C7_comparisonRows_witness :
    ({ mount := "/mnt/a",
       oldest := formatBytes (lookup0 [("/mnt/a", 1073741824)] "/mnt/a"),
       current := formatBytes 2147483648,
       diff := formatDiff (subW 2147483648
         (lookup0 [("/mnt/a", 1073741824)] "/mnt/a")) } : CompRow) ∈
      comparisonRows ⟨0, [("/mnt/a", 1073741824)], 1073741824⟩
        ⟨1, [("/mnt/a", 2147483648), ("/mnt/b", 1073741824)], 3221225472⟩ :=
  (C7_comparisonRows ⟨0, [("/mnt/a", 1073741824)], 1073741824⟩
    ⟨1, [("/mnt/a", 2147483648), ("/mnt/b", 1073741824)], 3221225472⟩).1
    ("/mnt/a", 2147483648) (by decide)

/-- C8: whenever the history holds fewer than two samples after the append
(in particular on the very first run), the output dispatch of `main` falls
back to the current-only report even when the compare flag is set. -/
theorem C8_firstRunFallback (compare : Bool) (entries : List UsageEntry)
    (currentEntry : UsageEntry) (hlen : entries.length < 2) :
    reportOf compare entries currentEntry = .currentOnly currentEntry := by
  unfold reportOf
  cases entries with
  | nil => cases compare <;> rfl
  | cons a t =>
    cases t with
    | nil => cases compare <;> rfl
    | cons b t' =>
      exfalso
      simp [List.length_cons] at hlen
      omega

/-- C8 witness: the first-ever run — one entry of history after the append
— with the compare flag set. -/
theorem C8_firstRunFallback_witness :
    reportOf true [⟨1, [("/a", 2)], 2⟩] ⟨1, [("/a", 2)], 2⟩ =
      .currentOnly ⟨1, [("/a", 2)], 2⟩ :=
  C8_firstRunFallback true [⟨1, [("/a", 2)], 2⟩] ⟨1, [("/a", 2)], 2⟩
    (by decide)

/-- C9: on a successful run, the history written to disk is the loaded
history (empty when the file did not exist) with exactly the fresh sample
appended: the length grows by one, every previously stored sample is
preserved unchanged at its original position, and the last element is the
fresh sample. -/
theorem C9_historyAppend (currentEntry : UsageEntry) (j : Json)
    (prior : List UsageEntry) (hdec : decodeEntries j = .ok prior) :
    mainHistory none currentEntry = some [currentEntry] ∧
    mainHistory (some j) currentEntry = some (prior ++ [currentEntry]) ∧
    (prior ++ [currentEntry]).length = prior.length + 1 ∧
    (∀ i : Nat, i < prior.length →
      (prior ++ [currentEntry])[i]? = prior[i]?) ∧
    (prior ++ [currentEntry]).getLast? = some currentEntry := by
  refine ⟨rfl, ?_, by simp, ?_, ?_⟩
  · simp [mainHistory, hdec]
  · intro i hi
    exact List.getElem?_append_left hi
  · exact List.getLast?_concat _

/-- C9 witness: a run against a file holding one decodable entry. -/
theorem C9_historyAppend_witness :
    mainHistory (some (encodeEntries ([⟨5, [("/a", 3)], 3⟩] :
        List UsageEntry))) ⟨9, [], 0⟩ =
      some (([⟨5, [("/a", 3)], 3⟩] : List UsageEntry) ++ [⟨9, [], 0⟩]) :=
  (C9_historyAppend ⟨9, [], 0⟩
    (encodeEntries [⟨5, [("/a", 3)], 3⟩]) [⟨5, [("/a", 3)], 3⟩]
    (by decide)).2.1

/-- C10: for every negative difference strictly above `-2^63`, `formatDiff`
is `"-"` followed by `formatBytes` of the positive magnitude; at `-2^63`
the `int64` negation wraps to `-2^63` itself, so the output is `"-"`
followed by `formatBytes (-2^63)` — a doubled minus sign rather than a
correctly formatted magnitude. -/
theorem C10_formatDiff_wrap :
    (∀ d : Int, -(2^63) < d → d < 0 →
      formatDiff d = "-" ++ formatBytes (-d)) ∧
    formatDiff (-(2^63)) = "-" ++ formatBytes (-(2^63)) ∧
    formatDiff (-(2^63)) = "--8589934592.00 GiB" := by
  refine ⟨?_, ?_, by decide⟩
  · intro d h1 h2
    have hneg : negW d = -d := wrap64_eq_self ⟨by omega, by omega⟩
    rw [formatDiff, if_neg (by omega), hneg]
  · have hneg : negW (-(2^63)) = -(2^63) := by decide
    rw [formatDiff, if_neg (by omega), hneg]

/-- C10 witness: the in-range rule applied at `-2^31`. -/
theorem C10_formatDiff_wrap_witness :
    formatDiff (-(2^31)) = "-" ++ formatBytes (-(-(2^31))) :=
  C10_formatDiff_wrap.1 (-(2^31)) (by decide) (by decide)

end NFSUsage
